import Mathlib

/-!
# git-sweeper: a shallow embedding of `main.go`

The program lists the branches of a repository and prints, for each one, the
latest commit's timestamp and message.  The embedding follows `main.go`
function by function (`run`, `print`, `fmtMessage`, `calcFreshness`).  The
pieces of the Go standard library and of the two third-party packages that the
program calls are modelled next to it, each under the name it has in Go:

* a Go `string` is a finite sequence of bytes (`len` and slicing count bytes);
* a `time.Time` is what it is in Go: seconds since the year 1 in a signed
  field of 64 bits, nanoseconds within the second, and the zone offset used to
  display it; `time.Now()` is an explicit argument;
* the repository library (`go-git`) is a record of the results that its calls
  return, every fallible call being an `Except`;
* standard output and the log stream are lists that the program appends to.
-/

namespace GitSweeper

set_option maxRecDepth 20000

/-! ## Strings -/

/-- A Go string: an immutable sequence of bytes. -/
abbrev GoString := List UInt8

/-- The bytes (UTF-8) of a string literal of the source text. -/
def str (s : String) : GoString := s.data.flatMap String.utf8EncodeChar

/-- The bytes (UTF-8) of a sequence of characters: the Go string that holds
exactly these characters. -/
def utf8 (cs : List Char) : GoString := cs.flatMap String.utf8EncodeChar

/-- Model of `strings.Split(s, sep)` for a separator of one byte, which is how
`fmtMessage` calls it: the pieces of `s` between the occurrences of `sep`,
in order.  The result always has one more element than `s` has separators, so
it is never empty. -/
def strings.Split (s : GoString) (sep : UInt8) : List GoString :=
  match s with
  | [] => [[]]
  | c :: rest =>
    if c = sep then [] :: strings.Split rest sep
    else
      match strings.Split rest sep with
      | [] => [[c]]
      | l :: ls => (c :: l) :: ls

/-- Model of `strings.HasSuffix(s, "\n")`. -/
def strings.HasSuffixNL (s : GoString) : Bool := s.getLast? == some 10

/-! ### Counting runes, as `fmt` does for a field width -/

/-- The table `first` of package `unicode/utf8` together with `acceptRanges`:
for a lead byte, the length of the encoding it starts and the range accepted
for the second byte; `none` for a byte that cannot start an encoding. -/
def utf8.first (c : UInt8) : Option (Nat × UInt8 × UInt8) :=
  if c < 0x80 then some (1, 0x80, 0xBF)
  else if c < 0xC2 then none
  else if c < 0xE0 then some (2, 0x80, 0xBF)
  else if c = 0xE0 then some (3, 0xA0, 0xBF)
  else if c < 0xED then some (3, 0x80, 0xBF)
  else if c = 0xED then some (3, 0x80, 0x9F)
  else if c < 0xF0 then some (3, 0x80, 0xBF)
  else if c = 0xF0 then some (4, 0x90, 0xBF)
  else if c < 0xF4 then some (4, 0x80, 0xBF)
  else if c = 0xF4 then some (4, 0x80, 0x8F)
  else none

/-- Whether `c` is a continuation byte (`locb ≤ c ≤ hicb`). -/
def utf8.isCont (c : UInt8) : Bool := decide (0x80 ≤ c) && decide (c ≤ 0xBF)

/-- The number of bytes that the loop body of `utf8.RuneCountInString`
advances by when the rune starts with byte `c` and `rest` follows: the length
of a well-formed encoding, and 1 for an ASCII byte, an invalid lead byte, a
truncated or an ill-formed encoding. -/
def utf8.advance (c : UInt8) (rest : GoString) : Nat :=
  if c < 0x80 then 1
  else
    match utf8.first c with
    | none => 1
    | some (size, lo, hi) =>
      if 1 + rest.length < size then 1
      else
        match rest with
        | [] => 1
        | c1 :: rest1 =>
          if c1 < lo || hi < c1 then 1
          else if size = 2 then 2
          else
            match rest1 with
            | [] => 1
            | c2 :: rest2 =>
              if !utf8.isCont c2 then 1
              else if size = 3 then 3
              else
                match rest2 with
                | [] => 1
                | c3 :: _ => if !utf8.isCont c3 then 1 else 4

/-- The loop of `utf8.RuneCountInString`; `skip` is the number of bytes still
to step over before the next rune starts. -/
def utf8.countFrom (skip : Nat) (s : GoString) : Nat :=
  match skip, s with
  | _, [] => 0
  | k + 1, _ :: rest => utf8.countFrom k rest
  | 0, c :: rest => 1 + utf8.countFrom (utf8.advance c rest - 1) rest

/-- Model of `utf8.RuneCountInString`: the number of runes in `s`, every byte
that is not part of a well-formed encoding counting as one rune. -/
def utf8.RuneCountInString (s : GoString) : Nat := utf8.countFrom 0 s

/-- Model of `(*fmt).padString` with the minus flag set, the way `%-32s`
formats a string: the string itself, then `wid - RuneCountInString(s)` spaces
when that number is positive.  Nothing is cut off: a precision would do that,
and the verb has none. -/
def fmt.padString (wid : Nat) (s : GoString) : GoString :=
  s ++ List.replicate (wid - utf8.RuneCountInString s) 32

/-- Model of `fmt.Sprintf("%-32s\t%s\t%s\n", a, b, c)` for three strings: `a`
left-justified in a field of minimum width 32, a tab, `b`, a tab, `c` and a
newline. -/
def fmt.Sprintf (a b c : GoString) : GoString :=
  fmt.padString 32 a ++ str "\t" ++ b ++ str "\t" ++ c ++ str "\n"

/-! ## Time -/

/-- A `time.Duration`: a number of nanoseconds. -/
abbrev Duration := Int

/-- The constant `time.Nanosecond`. -/
def time.Nanosecond : Duration := 1
/-- The constant `time.Microsecond`. -/
def time.Microsecond : Duration := 1000 * time.Nanosecond
/-- The constant `time.Millisecond`. -/
def time.Millisecond : Duration := 1000 * time.Microsecond
/-- The constant `time.Second`. -/
def time.Second : Duration := 1000 * time.Millisecond
/-- The constant `time.Minute`. -/
def time.Minute : Duration := 60 * time.Second
/-- The constant `time.Hour`. -/
def time.Hour : Duration := 60 * time.Minute

/-- The value that a signed variable of 64 bits holds after the integer `x` has
been stored in it: `x` itself when it fits, and `x` wrapped around otherwise. -/
def int64 (x : Int) : Int :=
  (x + 9223372036854775808) % 18446744073709551616 - 9223372036854775808

/-- The constant `unixToInternal` of package `time`: the seconds from
January 1 of the year 1 to January 1, 1970. -/
def time.unixToInternal : Int := (1969 * 365 + 1969 / 4 - 1969 / 100 + 1969 / 400) * 86400

/-- A `time.Time` without monotonic clock reading, as the time of a commit is:
the seconds since January 1 of the year 1, a signed field of 64 bits (`ext`),
the nanoseconds within the second (`nsec`), and the offset (seconds east of
UTC) of the zone that the time is displayed in.  A time with a monotonic
reading, as `time.Now()` returns, packs the same seconds and nanoseconds in
another way; compared with a time without one it is compared by them. -/
structure Time where
  ext : Int
  nsec : Nat
  offset : Int
  ext_ge : -9223372036854775808 ≤ ext
  ext_le : ext ≤ 9223372036854775807
  nsec_lt : nsec < 1000000000
  deriving DecidableEq

/-- Model of `time.Unix(sec, 0)` in UTC; the sum `sec + unixToInternal` is
made in 64 bits and wraps around for the last 62135596800 values of `sec`. -/
def time.Unix (sec : Int) : Time where
  ext := int64 (int64 sec + time.unixToInternal)
  nsec := 0
  offset := 0
  ext_ge := by unfold int64; omega
  ext_le := by unfold int64; omega
  nsec_lt := by decide

/-- Model of `t.In(time.FixedZone("", offset))`: the same instant, displayed
in another zone. -/
def Time.In (t : Time) (offset : Int) : Time := { t with offset := offset }

/-- Model of `(*Time).addSec` for a time without monotonic reading: `d` is
added to the seconds, and the result is the largest or the smallest value of
the field when the sum overflows. -/
def Time.addSec (t : Time) (d : Int) : Time :=
  let sum := int64 (t.ext + d)
  if decide (sum > t.ext) = decide (d > 0) then
    { t with
      ext := sum
      ext_ge := by show _ ≤ int64 (t.ext + d); unfold int64; omega
      ext_le := by show int64 (t.ext + d) ≤ _; unfold int64; omega }
  else if d > 0 then
    { t with ext := 9223372036854775807, ext_ge := by decide, ext_le := by decide }
  else
    { t with ext := -9223372036854775807, ext_ge := by decide, ext_le := by decide }

/-- Model of `t.Add(d)` for a time without monotonic reading: the duration is
split in seconds and nanoseconds (the division of Go rounds toward zero), the
nanoseconds are added and brought back into the second, and the seconds are
added by `addSec`. -/
def Time.Add (t : Time) (d : Duration) : Time :=
  let dsec := Int.tdiv d 1000000000
  let nsec := (t.nsec : Int) + Int.tmod d 1000000000
  if h1 : nsec ≥ 1000000000 then
    Time.addSec
      { t with
        nsec := (nsec - 1000000000).toNat
        nsec_lt := by
          have hm := Int.tmod_lt_of_pos d (show (0 : Int) < 1000000000 by decide)
          have ht := t.nsec_lt
          omega }
      (dsec + 1)
  else if h2 : nsec < 0 then
    Time.addSec { t with nsec := (nsec + 1000000000).toNat, nsec_lt := by omega } (dsec - 1)
  else
    Time.addSec { t with nsec := nsec.toNat, nsec_lt := by omega } dsec

/-- Model of `t.Before(u)`: the seconds of `t` are fewer, or they are the same
and the nanoseconds are fewer. -/
def Time.Before (t u : Time) : Bool :=
  decide (t.ext < u.ext) || (decide (t.ext = u.ext) && decide (t.nsec < u.nsec))

/-- The ASCII digit for `d`. -/
def time.digit (d : Nat) : UInt8 := (48 + d % 10).toUInt8

/-- Model of `appendInt` of package `time`: the decimal digits of `x`, padded
with zeros on the left to `width` digits, after a minus sign when `x` is
negative.  Like the Go function it treats the fields of two and of four digits
apart from the general case. -/
def time.appendInt (x : Int) (width : Nat) : GoString :=
  let u := x.natAbs
  let sign : GoString := if x < 0 then [45] else []
  if width = 2 ∧ u < 100 then
    sign ++ [time.digit (u / 10), time.digit u]
  else if width = 4 ∧ u < 10000 then
    sign ++ [time.digit (u / 1000), time.digit (u / 100), time.digit (u / 10), time.digit u]
  else
    let digits : GoString := (Nat.toDigits 10 u).map (fun c => c.toNat.toUInt8)
    sign ++ List.replicate (width - digits.length) 48 ++ digits

/-- The calendar date `(year, month, day)` of the day that lies `days` days
after 1970-01-01, in the proleptic Gregorian calendar. -/
def time.civil (days : Int) : Int × Int × Int :=
  let z := days + 719468
  let era := z / 146097
  let doe := z % 146097
  let yoe := (doe - doe / 1460 + doe / 36524 - doe / 146096) / 365
  let doy := doe - (365 * yoe + yoe / 4 - yoe / 100)
  let mp := (5 * doy + 2) / 153
  let d := doy - (153 * mp + 2) / 5 + 1
  let m := if mp < 10 then mp + 3 else mp - 9
  let y := yoe + era * 400 + (if m ≤ 2 then 1 else 0)
  (y, m, d)

/-- Model of `t.abs()`: the seconds from the absolute zero of package `time`
(January 1 of the year -292277022399) to the wall-clock reading of `t` in its
zone, an unsigned number of 64 bits; `9223371966579724800` is the constant
`internalToAbsolute`. -/
def Time.abs (t : Time) : Int :=
  (t.ext + t.offset + 9223371966579724800) % 18446744073709551616

/-- The number of seconds from 1970-01-01 00:00:00 to the wall-clock reading
of `t` in its zone, a whole number of days less than `t.abs`. -/
def Time.localSeconds (t : Time) : Int :=
  t.abs - (time.unixToInternal + 9223371966579724800)

/-- Model of `t.Date()`: year, month and day of `t` in its zone. -/
def Time.Date (t : Time) : Int × Int × Int := time.civil (t.localSeconds / 86400)

/-- Model of `t.Hour()`. -/
def Time.Hour (t : Time) : Int := t.localSeconds % 86400 / 3600

/-- Model of `t.Minute()`. -/
def Time.Minute (t : Time) : Int := t.localSeconds % 86400 % 3600 / 60

/-- Model of `t.Format("2006-01-02 15:04")`: the year (`2006`, at least four
digits), the month (`01`), the day (`02`), the hour (`15`) and the minute
(`04`), two digits each, of `t` in its zone, with the characters of the layout
between them. -/
def Time.Format (t : Time) : GoString :=
  time.appendInt t.Date.1 4 ++ str "-" ++ time.appendInt t.Date.2.1 2 ++ str "-"
    ++ time.appendInt t.Date.2.2 2 ++ str " " ++ time.appendInt t.Hour 2 ++ str ":"
    ++ time.appendInt t.Minute 2

/-! ## Freshness (`main.go`, lines 116-146) -/

/-- The type `freshness` with its four constants. -/
inductive freshness where
  | fresh
  | twoWeeksPlus
  | twoMonthsPlus
  | sixMonthsPlus
  deriving DecidableEq, Repr

/-- The integer value that `iota` gives each constant; a larger value is a
staler bucket. -/
def freshness.toNat : freshness → Nat
  | .fresh => 0
  | .twoWeeksPlus => 1
  | .twoMonthsPlus => 2
  | .sixMonthsPlus => 3

/-- The function `calcFreshness`, with the result of `time.Now()` as the
argument `now`. -/
def calcFreshness (now : Time) (t : Time) : freshness :=
  let month := time.Hour * 24 * 30
  let week := time.Hour * 24 * 7
  if (t.Add (6 * month)).Before now then
    freshness.sixMonthsPlus
  else if (t.Add (2 * month)).Before now then
    freshness.twoMonthsPlus
  else if (t.Add (2 * week)).Before now then
    freshness.twoWeeksPlus
  else
    freshness.fresh

/-! ## Message formatting (`main.go`, lines 99-114) -/

/-- The function `fmtMessage`. -/
def fmtMessage (message : GoString) : GoString :=
  let lines := strings.Split message 10
  if lines.length > 1 then
    lines.headD []
  else
    let line := lines.headD []
    if line.length > 64 then
      line.take 64 ++ str "..."
    else
      line

/-! ## Output -/

/-- The colours that the program prints in: the three named ones of package
`color` and `color.RGB(r, g, b)`. -/
inductive Colour where
  | Green
  | Yellow
  | Red
  | RGB (r g b : Nat)
  deriving DecidableEq, Repr

/-- One write to standard output: the text and the colour it is wrapped in. -/
structure Printed where
  colour : Colour
  text : GoString
  deriving DecidableEq, Repr

/-- Model of `colorPrint`, behind `color.Green`, `color.Yellow` and
`color.Red` called with a format and no further argument: the format is printed
as it is, after a newline has been added to it unless it ends with one. -/
def color.colorPrint (format : GoString) (p : Colour) : Printed :=
  let format := if strings.HasSuffixNL format then format else format ++ str "\n"
  { colour := p, text := format }

/-- Model of `color.RGB(r, g, b).Print(text)`. -/
def color.RGBPrint (r g b : Nat) (text : GoString) : Printed :=
  { colour := Colour.RGB r g b, text := text }

/-- What a run leaves behind: the writes to standard output and the entries
of the log stream, each in the order they were made. -/
structure Output where
  stdout : List Printed
  log : List GoString
  deriving DecidableEq, Repr

/-! ## The repository library -/

/-- An `error` value, represented by the text that its `Error()` returns. -/
abbrev Err := GoString

/-- The fields of `object.Commit` that the program reads: `Author.When` and
`Message`. -/
structure Commit where
  When : Time
  Message : GoString
  deriving DecidableEq

/-- An `object.CommitIter`, by what its first `Next()` returns. -/
structure CommitIter where
  Next : Except Err Commit

/-- A `plumbing.Reference`, by its `Hash()`. -/
structure Reference where
  Hash : GoString

/-- The iterator that `repo.Branches()` returns, by the short names
(`ref.Name().Short()`) of the references that its `ForEach` visits.  `run`
discards the value that `ForEach` itself returns. -/
structure ReferenceIter where
  shortNames : List GoString

/-- A `git.Repository`, by the results of the calls that `run` makes on it:
`Branches()`, `Reference(name, true)` and
`Log(&git.LogOptions{From: hash, Order: git.LogOrderCommitterTime})`. -/
structure Repository where
  Branches : Except Err ReferenceIter
  Reference : GoString → Except Err Reference
  Log : GoString → Except Err CommitIter

/-- Model of `plumbing.NewBranchReferenceName`. -/
def plumbing.NewBranchReferenceName (name : GoString) : GoString := str "refs/heads/" ++ name

/-- Everything outside the program that a run depends on: `os.Args`, what
`git.PlainOpen` returns for a path, and the reading of the clock (one reading
for the whole run; what `run` writes does not depend on it). -/
structure World where
  Args : List GoString
  PlainOpen : GoString → Except Err Repository
  now : Time

/-! ## The program (`main.go`, lines 17-97) -/

/-- The function `print`; the result is the write it makes to standard output,
if any.  Inside the function the variable `fresh` hides the constant of the
same name, so the first `case` of the `switch` compares the variable with
itself. -/
def print (now : Time) (branch : GoString) (commit : Commit) : Option Printed :=
  let ct := commit.When
  let fresh := calcFreshness now ct
  let message := fmtMessage commit.Message
  let text := fmt.Sprintf branch ct.Format message
  if fresh = fresh then
    some (color.colorPrint text Colour.Green)
  else if fresh = freshness.twoWeeksPlus then
    some (color.colorPrint text Colour.Yellow)
  else if fresh = freshness.twoMonthsPlus then
    some (color.RGBPrint 255 128 0 text)
  else if fresh = freshness.sixMonthsPlus then
    some (color.colorPrint text Colour.Red)
  else
    none

/-- The text of a log entry `log.Printf(format + " for %s: %s", name, err)`. -/
def logEntry (what : String) (name : GoString) (err : Err) : GoString :=
  str what ++ str " for " ++ name ++ str ": " ++ err

/-- The body of the loop `for _, name := range names` of `run`: the output
after the branches `names` have been handled, starting from the output `out`. -/
def runLoop (now : Time) (repo : Repository) : List GoString → Output → Output
  | [], out => out
  | name :: rest, out =>
    match repo.Reference (plumbing.NewBranchReferenceName name) with
    | .error err =>
      runLoop now repo rest
        { out with log := out.log ++ [logEntry "could not retrieve reference" name err] }
    | .ok ref =>
      match repo.Log ref.Hash with
      | .error err =>
        runLoop now repo rest
          { out with log := out.log ++ [logEntry "could not retrieve commmits" name err] }
      | .ok commits =>
        match commits.Next with
        | .error err =>
          runLoop now repo rest
            { out with log := out.log ++ [logEntry "could not retrieve first commit" name err] }
        | .ok commit =>
          runLoop now repo rest
            { out with stdout := out.stdout ++ (print now name commit).toList }

/-- The function `run`: the error it returns (`none` for `nil`) and the output
it has produced by then. -/
def run (w : World) : Option Err × Output :=
  if w.Args.length ≠ 2 then
    (some (str "repository path is required"), { stdout := [], log := [] })
  else
    let path := w.Args.getD 1 []
    match w.PlainOpen path with
    | .error err => (some (str "could not open repo: " ++ err), { stdout := [], log := [] })
    | .ok repo =>
      match repo.Branches with
      | .error _ => (some (str "could not retrieve branches"), { stdout := [], log := [] })
      | .ok branches =>
        let names := branches.shortNames.foldl (fun names ref => names ++ [ref]) []
        (none, runLoop w.now repo names { stdout := [], log := [] })

/-- The function `main`: the exit status of the process and its output;
`log.Fatal(err)` writes the error to the log and exits with status 1. -/
def main (w : World) : Nat × Output :=
  match run w with
  | (some err, out) => (1, { out with log := out.log ++ [err] })
  | (none, out) => (0, out)

/-! ## Notions used to state the properties of `run` -/

/-- A repository for the examples: the branch `main` with a commit of
14 November 2023, the branch `broken` whose reference does not resolve, and the
branch `old-feature` with a commit of 1970. -/
def exampleRepo : Repository where
  Branches := .ok { shortNames := [str "main", str "broken", str "old-feature"] }
  Reference := fun name =>
    if name = str "refs/heads/main" then .ok { Hash := str "aa" }
    else if name = str "refs/heads/old-feature" then .ok { Hash := str "bb" }
    else .error (str "reference not found")
  Log := fun hash =>
    if hash = str "aa" then
      .ok { Next := .ok { When := (time.Unix 1700000000).In 3600, Message := str "fix bug\nbody" } }
    else
      .ok { Next := .ok { When := time.Unix 0, Message := str "wip" } }

/-- A world for the examples: the program called with the path `repo`, where
`exampleRepo` is. -/
def exampleWorld : World where
  Args := [str "git-sweeper", str "repo"]
  PlainOpen := fun path => if path = str "repo" then .ok exampleRepo else .error (str "no repo")
  now := time.Unix 1700000000

/-- A commit whose time is `time.Unix` of the largest number of seconds: the
sum with `unixToInternal` wraps around, the time that `calcFreshness` receives
lies 292 billion years in the past, and its bucket is `sixMonthsPlus`. -/
theorem calcFreshness_wrapped_seconds :
    (time.Unix 9223372036854775807).ext = -9223371974719179009
      ∧ calcFreshness (time.Unix 1700000000) (time.Unix 9223372036854775807)
          = freshness.sixMonthsPlus := by
  decide

/-- The result of `strings.Split` is never empty. -/
theorem split_ne_nil (s : GoString) (sep : UInt8) : strings.Split s sep ≠ [] := by
  cases s with
  | nil => simp [strings.Split]
  | cons c rest =>
    simp only [strings.Split]
    split_ifs
    · simp
    · split <;> simp

/-- The first piece that `strings.Split` returns is the text before the first
separator. -/
theorem split_head (s : GoString) (sep : UInt8) :
    (strings.Split s sep).headD [] = s.takeWhile (fun b => b != sep) := by
  induction s with
  | nil => simp [strings.Split]
  | cons c rest ih =>
    simp only [strings.Split]
    by_cases h : c = sep
    · simp [h]
    · simp only [h, if_false]
      cases hs : strings.Split rest sep with
      | nil => exact absurd hs (split_ne_nil rest sep)
      | cons l ls =>
        rw [hs] at ih
        simp only [List.headD_cons] at ih
        simp [List.takeWhile_cons, h, ih]

/-- The number of pieces is one more than the number of separators. -/
theorem split_length (s : GoString) (sep : UInt8) :
    (strings.Split s sep).length = s.count sep + 1 := by
  induction s with
  | nil => simp [strings.Split]
  | cons c rest ih =>
    simp only [strings.Split]
    by_cases h : c = sep
    · simp [h, ih]
    · simp only [h, if_false]
      cases hs : strings.Split rest sep with
      | nil => exact absurd hs (split_ne_nil rest sep)
      | cons l ls =>
        rw [hs] at ih
        have hne : (c == sep) = false := by simpa using h
        simp only [List.length_cons] at ih ⊢
        rw [List.count_cons, hne]
        simpa using ih

/-- A string with a separator splits in at least two pieces. -/
theorem split_length_of_mem (s : GoString) (sep : UInt8) (h : sep ∈ s) :
    1 < (strings.Split s sep).length := by
  rw [split_length]
  have := List.count_pos_iff.mpr h
  omega

/-- A string without separator splits in one piece. -/
theorem split_length_of_not_mem (s : GoString) (sep : UInt8) (h : sep ∉ s) :
    (strings.Split s sep).length = 1 := by
  rw [split_length, List.count_eq_zero.mpr h]

/-- The text before the first separator of a string without separator is the
string. -/
theorem takeWhile_of_not_mem (s : GoString) (sep : UInt8) (h : sep ∉ s) :
    s.takeWhile (fun b => b != sep) = s := by
  rw [List.takeWhile_eq_self_iff]
  intro b hb
  have : b ≠ sep := fun e => h (e ▸ hb)
  simpa using this

/-- The result of `fmtMessage` on a message with a newline. -/
theorem fmtMessage_of_mem (message : GoString) (h : 10 ∈ message) :
    fmtMessage message = message.takeWhile (fun b => b != 10) := by
  have hl := split_length_of_mem message 10 h
  simp only [fmtMessage, gt_iff_lt, hl, if_true, split_head]

/-- The result of `fmtMessage` on a message without newline. -/
theorem fmtMessage_of_not_mem (message : GoString) (h : 10 ∉ message) :
    fmtMessage message
      = if 64 < message.length then message.take 64 ++ str "..." else message := by
  have hl := split_length_of_not_mem message 10 h
  simp only [fmtMessage, gt_iff_lt, hl, lt_irrefl, if_false, split_head,
    takeWhile_of_not_mem message 10 h]

/-- The text before the first newline has no newline. -/
theorem not_mem_takeWhile (s : GoString) (sep : UInt8) :
    sep ∉ s.takeWhile (fun b => b != sep) := by
  intro hm
  have := List.mem_takeWhile_imp hm
  simp at this

/-- The encoding of characters below 128 has one byte for each character. -/
theorem utf8_ascii (cs : List Char) (h : ∀ c ∈ cs, c.val ≤ 0x7f) :
    utf8 cs = cs.map (fun c => c.val.toUInt8) := by
  induction cs with
  | nil => rfl
  | cons c rest ih =>
    have hc : c.val ≤ 0x7f := h c (List.mem_cons_self c rest)
    have hr : utf8 rest = rest.map (fun c => c.val.toUInt8) :=
      ih (fun d hd => h d (List.mem_cons_of_mem c hd))
    simp only [utf8] at hr ⊢
    simp only [List.flatMap_cons, List.map_cons, hr, String.utf8EncodeChar, hc, if_true,
      List.singleton_append]

/-- C3: for every commit message that contains a newline, `fmtMessage`
returns exactly the text that precedes the first newline: the message is that
text, a newline and a remainder, and the text itself has no newline; nothing
is cut off and no ellipsis is added. -/
theorem fmtMessage_first_line (message : GoString) (h : 10 ∈ message) :
    fmtMessage message = message.takeWhile (fun b => b != 10)
      ∧ 10 ∉ fmtMessage message
      ∧ ∃ rest, message = fmtMessage message ++ 10 :: rest := by
  rw [fmtMessage_of_mem message h]
  refine ⟨rfl, not_mem_takeWhile message 10, message.dropWhile (fun b => b != 10) |>.tail, ?_⟩
  have hsplit := List.takeWhile_append_dropWhile (fun b => b != 10) message
  cases hd : message.dropWhile (fun b => b != 10) with
  | nil =>
    rw [hd, List.append_nil] at hsplit
    have hm : 10 ∈ message.takeWhile (fun b => b != 10) := by rw [hsplit]; exact h
    exact absurd hm (not_mem_takeWhile message 10)
  | cons b tl =>
    have hb : ¬ ((fun b => b != 10) b = true) := by
      have := List.dropWhile_get_zero_not (fun b => b != 10) message
        (by rw [hd]; exact Nat.succ_pos _)
      simpa [hd] using this
    have hb10 : b = 10 := by simpa using hb
    rw [hd, hb10] at hsplit
    rw [List.tail_cons]
    exact hsplit.symm

/-- The example of C3: the message "fix bug", newline, "longer body text"
gives "fix bug". -/
theorem fmtMessage_first_line_witness :
    fmtMessage (str "fix bug\nlonger body text") = str "fix bug" :=
  (fmtMessage_first_line (str "fix bug\nlonger body text") (by decide)).1.trans (by decide)

/-- The ellipsis has three bytes, none of them a newline. -/
theorem ellipsis_bytes : str "..." = [46, 46, 46] := by decide

/-- C4, as stated, fails: a message of 65 characters without newline, each an
e with acute accent (two bytes in UTF-8), is longer than 64 characters, and
`fmtMessage` does not return its first 64 characters followed by the ellipsis
(it returns the first 64 bytes, which are 32 characters, and the ellipsis). -/
theorem fmtMessage_truncates_chars_counterexample :
    ¬ ∀ cs : List Char, 10 ∉ utf8 cs → 64 < cs.length →
        fmtMessage (utf8 cs) = utf8 (cs.take 64) ++ str "..." := by
  intro h
  have h1 := h (List.replicate 65 'é') (by decide) (by decide)
  have h2 : (fmtMessage (utf8 (List.replicate 65 'é'))).length = 67 := by decide
  have h3 : (utf8 ((List.replicate 65 'é').take 64) ++ str "...").length = 131 := by decide
  rw [h1, h3] at h2
  exact absurd h2 (by decide)

/-- C4, amended: for every commit message that contains no newline and is
longer than 64 bytes, `fmtMessage` returns the first 64 bytes of the message
followed by the ellipsis "..."; for a message of ASCII characters, where bytes
and characters are the same, these are its first 64 characters. -/
theorem fmtMessage_truncates (message : GoString) (h : 10 ∉ message)
    (hlen : 64 < message.length) :
    fmtMessage message = message.take 64 ++ str "..."
      ∧ (fmtMessage message).length = 67
      ∧ ∀ cs : List Char, (∀ c ∈ cs, c.val ≤ 0x7f) → message = utf8 cs →
          64 < cs.length ∧ fmtMessage message = utf8 (cs.take 64) ++ str "..." := by
  have hf : fmtMessage message = message.take 64 ++ str "..." := by
    rw [fmtMessage_of_not_mem message h, if_pos hlen]
  refine ⟨hf, ?_, ?_⟩
  · rw [hf, List.length_append, List.length_take, ellipsis_bytes]
    simp only [List.length_cons, List.length_nil]
    omega
  · intro cs hascii hm
    have hmap := utf8_ascii cs hascii
    have htake := utf8_ascii (cs.take 64) (fun c hc => hascii c (List.mem_of_mem_take hc))
    refine ⟨?_, ?_⟩
    · rw [hm, hmap, List.length_map] at hlen
      exact hlen
    · rw [hf, htake, hm, hmap, List.map_take]

/-- The example of C4: a line of 80 letters `a` gives 64 letters `a` and the
ellipsis. -/
theorem fmtMessage_truncates_witness :
    fmtMessage (List.replicate 80 97) = List.replicate 64 97 ++ str "..." :=
  (fmtMessage_truncates (List.replicate 80 97) (by decide) (by decide)).1.trans (by decide)

/-- C5, as stated, fails: a message of 40 characters without newline, each an
e with acute accent (two bytes in UTF-8), has at most 64 characters, and
`fmtMessage` does not return it unchanged (it has 80 bytes and is cut to 64
bytes and the ellipsis). -/
theorem fmtMessage_unchanged_chars_counterexample :
    ¬ ∀ cs : List Char, 10 ∉ utf8 cs → cs.length ≤ 64 → fmtMessage (utf8 cs) = utf8 cs := by
  intro h
  have h1 := h (List.replicate 40 'é') (by decide) (by decide)
  have h2 : (fmtMessage (utf8 (List.replicate 40 'é'))).length = 67 := by decide
  have h3 : (utf8 (List.replicate 40 'é')).length = 80 := by decide
  rw [h1, h3] at h2
  exact absurd h2 (by decide)

/-- C5, amended: for every commit message that contains no newline and has at
most 64 bytes, `fmtMessage` returns the message unchanged; in particular every
message of at most 64 ASCII characters without newline, where bytes and
characters are the same, is returned unchanged. -/
theorem fmtMessage_unchanged :
    (∀ message : GoString, 10 ∉ message → message.length ≤ 64 →
        fmtMessage message = message)
      ∧ (∀ cs : List Char, (∀ c ∈ cs, c.val ≤ 0x7f) → 10 ∉ utf8 cs → cs.length ≤ 64 →
          fmtMessage (utf8 cs) = utf8 cs) := by
  have hbytes : ∀ message : GoString, 10 ∉ message → message.length ≤ 64 →
      fmtMessage message = message := by
    intro message h hlen
    rw [fmtMessage_of_not_mem message h, if_neg (by omega)]
  refine ⟨hbytes, ?_⟩
  intro cs hascii hnl hlen
  apply hbytes (utf8 cs) hnl
  rw [utf8_ascii cs hascii, List.length_map]
  exact hlen

/-- The example of C5: a line of 40 letters `a` is returned as it is, as a
string of bytes and as a string of characters. -/
theorem fmtMessage_unchanged_witness :
    fmtMessage (List.replicate 40 97) = List.replicate 40 97
      ∧ fmtMessage (utf8 (List.replicate 40 'a')) = utf8 (List.replicate 40 'a') :=
  ⟨fmtMessage_unchanged.1 (List.replicate 40 97) (by decide) (by decide),
    fmtMessage_unchanged.2 (List.replicate 40 'a') (by decide) (by decide) (by decide)⟩

/-- The result of `fmtMessage` has no newline. -/
theorem fmtMessage_not_mem (message : GoString) : 10 ∉ fmtMessage message := by
  by_cases h : 10 ∈ message
  · rw [fmtMessage_of_mem message h]
    exact not_mem_takeWhile message 10
  · rw [fmtMessage_of_not_mem message h, ellipsis_bytes]
    split_ifs
    · intro hm
      rcases List.mem_append.mp hm with hm | hm
      · exact h (List.mem_of_mem_take hm)
      · exact absurd hm (by decide)
    · exact h

/-- The result of `fmtMessage` on a message without newline has at most 67
bytes. -/
theorem fmtMessage_length_le (message : GoString) (h : 10 ∉ message) :
    (fmtMessage message).length ≤ 67 := by
  rw [fmtMessage_of_not_mem message h, ellipsis_bytes]
  split_ifs with hlen
  · rw [List.length_append, List.length_take]
    simp only [List.length_cons, List.length_nil]
    omega
  · omega

/-- C10: for every commit message the result of `fmtMessage` contains no
newline, and for every message without newline the result has at most 67
bytes. -/
theorem fmtMessage_no_newline (message : GoString) :
    10 ∉ fmtMessage message ∧ (10 ∉ message → (fmtMessage message).length ≤ 67) :=
  ⟨fmtMessage_not_mem message, fmtMessage_length_le message⟩

/-- A use of C10 on a line of 100 letters `a`: the result has no newline and
at most 67 bytes. -/
theorem fmtMessage_no_newline_witness :
    10 ∉ fmtMessage (List.replicate 100 97)
      ∧ (fmtMessage (List.replicate 100 97)).length ≤ 67 :=
  ⟨(fmtMessage_no_newline (List.replicate 100 97)).1,
    (fmtMessage_no_newline (List.replicate 100 97)).2 (by decide)⟩

/-! ## Field width -/

/-- A lead byte outside ASCII starts an encoding of at least two bytes whose
second byte is not below `0x80`. -/
theorem first_some (c : UInt8) (size : Nat) (lo hi : UInt8) (hc : ¬ c < 0x80)
    (h : utf8.first c = some (size, lo, hi)) :
    (size = 2 ∨ size = 3 ∨ size = 4) ∧ (32 : UInt8) < lo := by
  simp only [utf8.first, hc, if_false] at h
  split_ifs at h <;> simp only [Option.some.injEq, Prod.mk.injEq, reduceCtorEq] at h
  all_goals (obtain ⟨rfl, rfl, rfl⟩ := h; exact ⟨by decide, by decide⟩)

/-- A space is not a continuation byte. -/
theorem isCont_space : utf8.isCont 32 = false := by decide

/-- Spaces after a string do not change how far the rune at its start
reaches. -/
theorem advance_append_spaces (c : UInt8) (rest : GoString) (n : Nat) :
    utf8.advance c (rest ++ List.replicate n 32) = utf8.advance c rest := by
  unfold utf8.advance
  by_cases hc : c < 0x80
  · simp only [hc, if_true]
  · simp only [hc, if_false]
    cases hf : utf8.first c with
    | none => rfl
    | some v =>
      obtain ⟨size, lo, hi⟩ := v
      obtain ⟨hsize, hlo⟩ := first_some c size lo hi hc hf
      have hsp : ((32 : UInt8) < lo || hi < 32) = true := by simp [hlo]
      simp only []
      rcases rest with _ | ⟨c1, _ | ⟨c2, _ | ⟨c3, rest3⟩⟩⟩
      · rcases n with _ | n
        · simp
        · simp only [List.nil_append, List.replicate_succ, hsp, if_true, List.length_nil]
          rcases hsize with h | h | h <;> simp [h]
      · rcases n with _ | n
        · simp
        · simp only [List.cons_append, List.nil_append, List.replicate_succ, isCont_space,
            List.length_cons, List.length_nil, List.length_replicate]
          rcases hsize with h | h | h <;> (subst h; simp; try omega)
      · rcases n with _ | n
        · simp
        · simp only [List.cons_append, List.nil_append, List.replicate_succ, isCont_space,
            List.length_cons, List.length_nil, List.length_replicate]
          rcases hsize with h | h | h <;> (subst h; simp; try omega)
      · simp only [List.cons_append, List.length_cons, List.length_append,
          List.length_replicate]
        rcases hsize with h | h | h <;> subst h <;> simp <;> split_ifs <;> first | rfl | omega

/-- The rune at the start of a string does not reach beyond the string. -/
theorem advance_le (c : UInt8) (rest : GoString) : utf8.advance c rest - 1 ≤ rest.length := by
  unfold utf8.advance
  by_cases hc : c < 0x80
  · simp only [hc, if_true]; omega
  · simp only [hc, if_false]
    cases hf : utf8.first c with
    | none => simp
    | some v =>
      obtain ⟨size, lo, hi⟩ := v
      obtain ⟨hsize, -⟩ := first_some c size lo hi hc hf
      simp only []
      rcases rest with _ | ⟨c1, _ | ⟨c2, _ | ⟨c3, rest3⟩⟩⟩ <;>
        rcases hsize with h | h | h <;> subst h <;> simp <;> split_ifs <;> simp

/-- A string of spaces has one rune for each space. -/
theorem countFrom_spaces (n : Nat) : utf8.countFrom 0 (List.replicate n 32) = n := by
  induction n with
  | zero => rfl
  | succ n ih =>
    have ha : utf8.advance 32 (List.replicate n 32) = 1 := by
      unfold utf8.advance
      simp only [show (32 : UInt8) < 0x80 from by decide, if_true]
    rw [List.replicate_succ, utf8.countFrom, ha, ih]
    omega

/-- Spaces after a string add one rune each. -/
theorem countFrom_append_spaces (s : GoString) (n : Nat) :
    ∀ k, k ≤ s.length →
      utf8.countFrom k (s ++ List.replicate n 32) = utf8.countFrom k s + n := by
  induction s with
  | nil =>
    intro k hk
    have hk0 : k = 0 := by simpa using hk
    subst hk0
    rw [List.nil_append, countFrom_spaces]
    simp [utf8.countFrom]
  | cons c rest ih =>
    intro k hk
    cases k with
    | zero =>
      rw [List.cons_append, utf8.countFrom, utf8.countFrom, advance_append_spaces,
        ih _ (advance_le c rest)]
      omega
    | succ k =>
      rw [List.cons_append, utf8.countFrom, utf8.countFrom]
      exact ih k (by simpa using hk)

/-- A field padded to width `wid` has `wid` runes, or those of the string when
these are more. -/
theorem padString_runes (wid : Nat) (s : GoString) :
    utf8.RuneCountInString (fmt.padString wid s) = max wid (utf8.RuneCountInString s) := by
  unfold fmt.padString utf8.RuneCountInString
  rw [countFrom_append_spaces s _ 0 (Nat.zero_le _)]
  omega

/-- The rune count of an ASCII string is its length. -/
theorem countFrom_ascii (s : GoString) (h : ∀ b ∈ s, b < 0x80) :
    utf8.RuneCountInString s = s.length := by
  unfold utf8.RuneCountInString
  induction s with
  | nil => rfl
  | cons c rest ih =>
    have hc : c < 0x80 := h c (List.mem_cons_self c rest)
    have ha : utf8.advance c rest = 1 := by
      unfold utf8.advance
      simp only [hc, if_true]
    rw [utf8.countFrom, ha, ih (fun b hb => h b (List.mem_cons_of_mem c hb)), List.length_cons]
    omega

/-! ## Timestamp format -/

/-- Every byte that `time.digit` returns is an ASCII digit. -/
theorem digit_range (d : Nat) : 48 ≤ time.digit d ∧ time.digit d ≤ 57 := by
  have h : ∀ k : Fin 10, (48 : UInt8) ≤ (48 + k.val).toUInt8 ∧ (48 + k.val).toUInt8 ≤ 57 := by
    decide
  exact h ⟨d % 10, Nat.mod_lt d (by decide)⟩

/-- A field of two digits. -/
theorem appendInt_two (x : Int) (h0 : 0 ≤ x) (h1 : x < 100) :
    time.appendInt x 2 = [time.digit (x.natAbs / 10), time.digit x.natAbs] := by
  have hn : ¬ x < 0 := by omega
  have hu : x.natAbs < 100 := by omega
  simp [time.appendInt, hn, hu]

/-- A field of four digits. -/
theorem appendInt_four (x : Int) (h0 : 0 ≤ x) (h1 : x < 10000) :
    time.appendInt x 4
      = [time.digit (x.natAbs / 1000), time.digit (x.natAbs / 100),
          time.digit (x.natAbs / 10), time.digit x.natAbs] := by
  have hn : ¬ x < 0 := by omega
  have hu : x.natAbs < 10000 := by omega
  simp [time.appendInt, hn, hu]

/-- The month and the day that `time.civil` returns are a month and a day of
the calendar. -/
theorem civil_month_day (days : Int) :
    1 ≤ (time.civil days).2.1 ∧ (time.civil days).2.1 ≤ 12
      ∧ 1 ≤ (time.civil days).2.2 ∧ (time.civil days).2.2 ≤ 31 := by
  simp only [time.civil]
  split_ifs <;> omega

/-- The timestamp of a year from 0 to 9999, digit by digit. -/
theorem Format_digits (t : Time) (h0 : 0 ≤ t.Date.1) (h1 : t.Date.1 ≤ 9999) :
    t.Format
      = [time.digit (t.Date.1.natAbs / 1000), time.digit (t.Date.1.natAbs / 100),
          time.digit (t.Date.1.natAbs / 10), time.digit t.Date.1.natAbs, 45,
          time.digit (t.Date.2.1.natAbs / 10), time.digit t.Date.2.1.natAbs, 45,
          time.digit (t.Date.2.2.natAbs / 10), time.digit t.Date.2.2.natAbs, 32,
          time.digit (t.Hour.natAbs / 10), time.digit t.Hour.natAbs, 58,
          time.digit (t.Minute.natAbs / 10), time.digit t.Minute.natAbs] := by
  obtain ⟨hm1, hm2, hd1, hd2⟩ := civil_month_day (t.localSeconds / 86400)
  have hh : 0 ≤ t.Hour ∧ t.Hour < 100 := by unfold Time.Hour; omega
  have hn : 0 ≤ t.Minute ∧ t.Minute < 100 := by unfold Time.Minute; omega
  have e1 : str "-" = [45] := by decide
  have e2 : str " " = [32] := by decide
  have e3 : str ":" = [58] := by decide
  unfold Time.Format
  rw [appendInt_four _ h0 (by omega), appendInt_two t.Date.2.1 (by unfold Time.Date; omega)
    (by unfold Time.Date; omega), appendInt_two t.Date.2.2 (by unfold Time.Date; omega)
    (by unfold Time.Date; omega), appendInt_two _ hh.1 hh.2, appendInt_two _ hn.1 hn.2,
    e1, e2, e3]
  rfl

/-- The timestamp of a year from 0 to 9999 has the form `YYYY-MM-DD HH:MM`:
sixteen bytes, digits but for the two hyphens, the space and the colon. -/
theorem Format_shape (t : Time) (h0 : 0 ≤ t.Date.1) (h1 : t.Date.1 ≤ 9999) :
    ∃ y1 y2 y3 y4 m1 m2 d1 d2 h1 h2 n1 n2 : UInt8,
      t.Format = [y1, y2, y3, y4, 45, m1, m2, 45, d1, d2, 32, h1, h2, 58, n1, n2]
        ∧ ∀ b ∈ [y1, y2, y3, y4, m1, m2, d1, d2, h1, h2, n1, n2], 48 ≤ b ∧ b ≤ 57 := by
  refine ⟨_, _, _, _, _, _, _, _, _, _, _, _, Format_digits t h0 h1, ?_⟩
  intro b hb
  simp only [List.mem_cons, List.mem_singleton, List.not_mem_nil, or_false] at hb
  rcases hb with h | h | h | h | h | h | h | h | h | h | h | h <;> subst h <;>
    exact digit_range _

/-- A text that ends with a newline is printed as it is. -/
theorem colorPrint_newline (text : GoString) (p : Colour) :
    color.colorPrint (text ++ str "\n") p = { colour := p, text := text ++ str "\n" } := by
  have e : str "\n" = [10] := by decide
  simp [color.colorPrint, strings.HasSuffixNL, e]

/-- Whatever the commit and the time, `print` makes one write, in green, of
the text that `fmt.Sprintf` has built. -/
theorem print_eq (now : Time) (branch : GoString) (commit : Commit) :
    print now branch commit
      = some { colour := Colour.Green,
               text := fmt.Sprintf branch commit.When.Format (fmtMessage commit.Message) } := by
  simp only [print, if_true, fmt.Sprintf, colorPrint_newline]

/-- The text before the first tab of a string without tab that a tab
follows. -/
theorem takeWhile_tab (s rest : GoString) (h : 9 ∉ s) :
    (s ++ 9 :: rest).takeWhile (fun b => b != 9) = s := by
  induction s with
  | nil => simp
  | cons c tl ih =>
    have hc : c ≠ 9 := fun e => h (e ▸ List.mem_cons_self c tl)
    have ht : 9 ∉ tl := fun hm => h (List.mem_cons_of_mem c hm)
    simp [List.takeWhile_cons, hc, ih ht]

/-- C2, at the input where the code departs from it: a commit of 200 days ago
is in the bucket `sixMonthsPlus`, and `print` writes its line in green, not in
red. -/
theorem print_stale_commit_green :
    calcFreshness (time.Unix (200 * 86400)) (time.Unix 0) = freshness.sixMonthsPlus
      ∧ (print (time.Unix (200 * 86400)) (str "old-feature") ⟨time.Unix 0, str "wip"⟩).map
          Printed.colour = some Colour.Green := by
  decide

/-- C7, as stated, fails: a branch name of 40 letters `a` is not cut to the
column width; the text before the first tab has all 40 bytes of the name. -/
theorem print_long_name_counterexample :
    (print (time.Unix 0) (List.replicate 40 97) ⟨time.Unix 0, str "wip"⟩).map
        (fun p => p.text.takeWhile (fun b => b != 9))
      = some (List.replicate 40 97)
      ∧ List.replicate 40 97 ≠ (List.replicate 40 97 : GoString).take 32 := by
  decide

/-- C7, amended: the text that `print` builds is the name field, a tab, the
commit timestamp, a tab, `fmtMessage` of the commit message and a newline.  The
name field is the whole branch name followed by as many spaces as the name has
fewer than 32 characters (runes), so it has 32 characters for a shorter name
and is the name itself, not cut, for a longer one (for an ASCII name characters
are bytes); for a name without tab it is everything before the first tab.  For
a year from 0 to 9999 the timestamp has the form `YYYY-MM-DD HH:MM`. -/
theorem print_text (now : Time) (branch : GoString) (commit : Commit) :
    ∃ p field,
      print now branch commit = some p
        ∧ field = branch ++ List.replicate (32 - utf8.RuneCountInString branch) 32
        ∧ p.text = field ++ str "\t" ++ commit.When.Format ++ str "\t"
            ++ fmtMessage commit.Message ++ str "\n"
        ∧ utf8.RuneCountInString field = max 32 (utf8.RuneCountInString branch)
        ∧ ((∀ b ∈ branch, b < 0x80) → field.length = max 32 branch.length)
        ∧ (9 ∉ branch → p.text.takeWhile (fun b => b != 9) = field)
        ∧ (0 ≤ commit.When.Date.1 → commit.When.Date.1 ≤ 9999 →
            ∃ y1 y2 y3 y4 m1 m2 d1 d2 h1 h2 n1 n2 : UInt8,
              commit.When.Format
                  = [y1, y2, y3, y4, 45, m1, m2, 45, d1, d2, 32, h1, h2, 58, n1, n2]
                ∧ ∀ b ∈ [y1, y2, y3, y4, m1, m2, d1, d2, h1, h2, n1, n2], 48 ≤ b ∧ b ≤ 57) := by
  refine ⟨_, _, print_eq now branch commit, rfl, rfl, padString_runes 32 branch, ?_, ?_,
    Format_shape commit.When⟩
  · intro hascii
    rw [List.length_append, List.length_replicate, countFrom_ascii branch hascii]
    omega
  intro htab
  have e : str "\t" = [9] := by decide
  have hfield : 9 ∉ branch ++ List.replicate (32 - utf8.RuneCountInString branch) 32 := by
    intro hm
    rcases List.mem_append.mp hm with hm | hm
    · exact htab hm
    · exact absurd (List.eq_of_mem_replicate hm) (by decide)
  have hk := takeWhile_tab _
    (commit.When.Format ++ (9 :: fmtMessage commit.Message ++ str "\n")) hfield
  simp only [fmt.Sprintf, fmt.padString, e, List.append_assoc, List.singleton_append,
    List.cons_append] at hk ⊢
  exact hk

/-- The example of C7: for the branch `main` the text before the first tab is
the name and 28 spaces, and the timestamp of a commit of 14 November 2023 has
16 bytes. -/
theorem print_text_witness :
    ∃ p, print (time.Unix 1700000000) (str "main")
            ⟨(time.Unix 1700000000).In 3600, str "wip"⟩ = some p
      ∧ p.text.takeWhile (fun b => b != 9) = str "main" ++ List.replicate 28 32
      ∧ (Time.Format ((time.Unix 1700000000).In 3600)).length = 16 := by
  obtain ⟨p, field, hp, hfield, -, -, -, htab, hshape⟩ :=
    print_text (time.Unix 1700000000) (str "main") ⟨(time.Unix 1700000000).In 3600, str "wip"⟩
  obtain ⟨y1, y2, y3, y4, m1, m2, d1, d2, h1, h2, n1, n2, hf, -⟩ :=
    hshape (by decide) (by decide)
  refine ⟨p, hp, ?_, ?_⟩
  · rw [htab (by decide), hfield]
    decide
  · simp only [] at hf
    rw [hf]
    rfl

/-! ## The function `run` -/

/-- C8: `run` returns an error exactly when the number of arguments after the
program name is not one, or the repository at the given path cannot be opened,
or `Branches` fails on it, and it returns `nil` in every other case; `main`
exits with a status other than zero exactly when `run` returns an error; and
when the number of arguments is wrong, as on every other fatal path, nothing
has been written to standard output. -/
theorem run_error_iff (w : World) :
    ((run w).1 ≠ none ↔
        w.Args.tail.length ≠ 1
          ∨ (∃ err, w.PlainOpen (w.Args.getD 1 []) = .error err)
          ∨ (∃ repo err, w.PlainOpen (w.Args.getD 1 []) = .ok repo
              ∧ repo.Branches = .error err))
      ∧ ((main w).1 ≠ 0 ↔ (run w).1 ≠ none)
      ∧ (w.Args.tail.length ≠ 1 → (run w).2.stdout = [])
      ∧ ((run w).1 ≠ none → (run w).2.stdout = []) := by
  have hlen : w.Args.tail.length ≠ 1 ↔ w.Args.length ≠ 2 := by
    cases w.Args with
    | nil => simp
    | cons a tl => simp
  have hmain : (main w).1 ≠ 0 ↔ (run w).1 ≠ none := by
    unfold main
    rcases hrun : run w with ⟨_ | err, out⟩ <;> simp
  refine ⟨?_, hmain, ?_, ?_⟩
  · rw [hlen]
    unfold run
    by_cases h : w.Args.length ≠ 2
    · simp [h]
    · simp only [h, if_false, false_or]
      cases ho : w.PlainOpen (w.Args.getD 1 []) with
      | error err => simp
      | ok repo =>
        cases hb : repo.Branches with
        | error err => simp [hb]
        | ok branches => simp [hb]
  · rw [hlen]
    intro h
    simp [run, h]
  · unfold run
    by_cases h : w.Args.length ≠ 2
    · simp [h]
    · simp only [h, if_false]
      cases ho : w.PlainOpen (w.Args.getD 1 []) with
      | error err => simp
      | ok repo =>
        cases hb : repo.Branches with
        | error err => simp [hb]
        | ok branches => simp [hb]

/-- A use of C8: called without a path the program fails and writes nothing to
standard output. -/
theorem run_error_iff_witness :
    (run { exampleWorld with Args := [str "git-sweeper"] }).1 ≠ none
      ∧ (run { exampleWorld with Args := [str "git-sweeper"] }).2.stdout = [] :=
  ⟨(run_error_iff { exampleWorld with Args := [str "git-sweeper"] }).1.mpr
      (Or.inl (by decide)),
    (run_error_iff { exampleWorld with Args := [str "git-sweeper"] }).2.2.1 (by decide)⟩

/-- The example world: `run` returns `nil`, the process exits with status 0,
two lines are on standard output, both in green, and one entry is in the log,
for the branch `broken`. -/
theorem run_example :
    (run exampleWorld).1 = none
      ∧ (main exampleWorld).1 = 0
      ∧ (run exampleWorld).2.stdout
          = [⟨Colour.Green,
              str "main                            \t2023-11-14 23:13\tfix bug\n"⟩,
             ⟨Colour.Green,
              str "old-feature                     \t1970-01-01 00:00\twip\n"⟩]
      ∧ (run exampleWorld).2.log
          = [str "could not retrieve reference for broken: reference not found"] := by
  decide

end GitSweeper
